import Mathlib

/-!
Verification of the markup-aware text-extraction core of a prose linter
(the `lint` package: `walk.go` and the HTML token driver).

Strings are modelled as `List Char` (Go byte/rune indexing coincides with
character indexing on the ASCII inputs the development evaluates; the
claims under study do not concern multi-byte encodings).  Go's `strings`
helpers (`Index`, `Split`, `Fields`, `Count`, `TrimSpace`) are embedded as
executable Lean functions below.
-/

/-- Strings as lists of characters. -/
abbrev Str := List Char

/-- Convert a Lean string literal to the `Str` model. -/
def chars (s : String) : Str := s.data

/-- Whitespace test used by `strings.Fields` / `strings.TrimSpace`
(ASCII white space; the inputs studied contain no Unicode spaces). -/
def isSpace (c : Char) : Bool :=
  c = ' ' || c = '\t' || c = '\n' || c = '\r' || c = '\x0b' || c = '\x0c'

/-- Go `strings.Split(s, sep)` for a one-character separator: splits on every
occurrence of `sep`, keeping empty pieces (`Split("", sep) = [""]`). -/
def splitOnChar (sep : Char) : Str → List Str
  | [] => [[]]
  | c :: t =>
    let r := splitOnChar sep t
    if c = sep then [] :: r
    else
      match r with
      | [] => [[c]]
      | h :: rest => (c :: h) :: rest

/-- Go `strings.Split(t, "\n")`. -/
def splitNl (s : Str) : List Str := splitOnChar '\n' s

/-- Accumulator-based worker for `fields`: `acc` holds the current word,
reversed. -/
def fieldsAux : Str → Str → List Str
  | acc, [] => if acc = [] then [] else [acc.reverse]
  | acc, c :: t =>
    if isSpace c then
      if acc = [] then fieldsAux [] t else acc.reverse :: fieldsAux [] t
    else fieldsAux (c :: acc) t

/-- Go `strings.Fields`: the maximal runs of non-whitespace characters. -/
def fields (s : Str) : List Str := fieldsAux [] s

/-- Go `strings.TrimSpace`. -/
def trim (s : Str) : Str :=
  ((s.dropWhile isSpace).reverse.dropWhile isSpace).reverse

/-- Index of the first occurrence of `sub` in `s` (`none` when absent).
Mirrors Go `strings.Index` (which returns an empty-pattern match at 0). -/
def firstIndex? (s sub : Str) : Option Nat :=
  match s with
  | [] => if sub.isPrefixOf ([] : Str) then some 0 else none
  | _ :: t =>
    if sub.isPrefixOf s then some 0
    else (firstIndex? t sub).map (· + 1)

/-- Go `strings.Index`: first index of `sub` in `s`, `-1` when absent. -/
def strIndex (s sub : Str) : Int :=
  match firstIndex? s sub with
  | some n => (n : Int)
  | none => -1

/-- Go `strings.Contains`. -/
def containsStr (s sub : Str) : Bool := (firstIndex? s sub).isSome

/-- `sub` occurs in `s` starting at position `i`. -/
def occursAt (s sub : Str) (i : Nat) : Bool := sub.isPrefixOf (s.drop i)

/-- Number of positions at which `sub` occurs in `s`. -/
def occurrencesCount (s sub : Str) : Nat :=
  ((List.range (s.length + 1)).filter (fun i => occursAt s sub i)).length

/-- Modelled from the spec: `core.Substitute` (the `core` package is not under
`src/`).  Per the spec, the destructive consume "overwrite[s] the matched span
with a fixed-width sentinel character sequence, in place, preserving total
length and line structure": the first occurrence of `sub` in `src` is replaced
by `sub` with every non-newline character rewritten to `ch`; the Boolean
reports whether an occurrence was found. -/
def substitute (src sub : Str) (ch : Char) : Str × Bool :=
  match firstIndex? src sub with
  | none => (src, false)
  | some i =>
    (src.take i ++ sub.map (fun c => if c = '\n' then c else ch)
      ++ src.drop (i + sub.length), true)

/-- HTML token types exposed by the tokenizer (`golang.org/x/net/html`). -/
inductive TokenType where
  | startTag
  | endTag
  | text
  | comment
  | error
deriving DecidableEq, Repr

/-- An HTML token: its name/text (`Data`) and its attributes (key/value). -/
structure Token where
  data : Str
  attr : List (Str × Str)
deriving DecidableEq, Repr

/-- Modelled from the spec: `core.Block` and its constructors (the `core`
package is not under `src/`).  Per the spec a Block is the tuple
`(context, text, scope, line)` handed to the rule-evaluation sink. -/
structure Block where
  context : Str
  text : Str
  scope : Str
  line : Int
deriving DecidableEq, Repr

/-- Modelled from the spec: `core.NewBlock(ctx, txt, scope)` packages a block
with no recovered line (the line component defaults to zero). -/
def newBlock (ctx txt scope : Str) : Block :=
  { context := ctx, text := txt, scope := scope, line := 0 }

/-- Modelled from the spec: `core.NewLinedBlock(ctx, txt, scope, line)`
packages a block with the already-resolved line. -/
def newLinedBlock (ctx txt scope : Str) (line : Int) : Block :=
  { context := ctx, text := txt, scope := scope, line := line }

/-- The `walker` struct of `walk.go` (the tokenizer handle `z` is the token
stream fed separately to the driver; `section` is never read). -/
structure Walker where
  lines : Int
  context : Str
  idx : Int
  queue : List Str
  tagHistory : List Str
  activeTag : Str
deriving DecidableEq, Repr

/-- `updateCtx` of the driver file: per line of `txt` (split on newline), mask
the first occurrence via `core.Substitute` with sentinel `'@'`; if the whole
line is not found, mask each whitespace-delimited word instead. -/
def updateCtx (ctx txt : Str) (tokt : TokenType) : Str :=
  if (tokt = TokenType.text ∨ tokt = TokenType.comment) ∧ txt ≠ [] then
    (splitNl txt).foldl
      (fun c s =>
        let r := substitute c s '@'
        if r.2 then r.1
        else (fields s).foldl (fun c2 w => (substitute c2 w '@').1) r.1)
      ctx
  else ctx

/-- `updateContext`: sequentially consume every queued fragment. -/
def updateContext (ctx : Str) (queue : List Str) : Str :=
  queue.foldl (fun c s => updateCtx c s TokenType.text) ctx

/-- `newWalker` of `walk.go` (the raw HTML bytes feed the tokenizer, which is
modelled as the driver's token list). -/
def newWalker (content : Str) (lines : Int) : Walker :=
  { lines := lines, context := content, idx := 0, queue := [],
    tagHistory := [], activeTag := [] }

/-- `(*walker).advance` of `walk.go`: two-tier search (whole line, then each
whitespace-delimited word) per line of `t`; on success the line number is the
count of newlines before the match, returned only when it exceeds the current
cursor. -/
def Walker.advance (w : Walker) (t : Str) : Int :=
  let pos := (splitNl t).foldl
    (fun _p s =>
      let p := strIndex w.context s
      if p < 0 then (fields s).foldl (fun _q ss => strIndex w.context ss) p
      else p)
    (0 : Int)
  if pos ≥ 0 then
    let l : Int := ((w.context.take pos.toNat).count '\n' : Nat)
    if l > w.idx then l else -1
  else -1

/-- `(*walker).append` of `walk.go`: no-op on the empty fragment; otherwise
advance the cursor when a position is found and push the fragment to the
queue. -/
def Walker.append (w : Walker) (txt : Str) : Walker :=
  if txt = [] then w
  else
    let pos := w.advance txt
    let w1 := if pos > -1 then { w with idx := pos } else w
    { w1 with queue := w1.queue ++ [txt] }

/-- `(*walker).reset` of `walk.go`: destructively consume every queued
fragment from the context, then clear `queue` and `tagHistory`. -/
def Walker.reset (w : Walker) : Walker :=
  { w with context := updateContext w.context w.queue,
           queue := [], tagHistory := [] }

/-- `(*walker).addTag` of `walk.go`. -/
def Walker.addTag (w : Walker) (t : Str) : Walker :=
  { w with tagHistory := w.tagHistory ++ [t], activeTag := t }

/-- `(*walker).block` of `walk.go`: take the cursor as the baseline line,
refine it by re-running `advance` on the final text. -/
def Walker.block (w : Walker) (text scope : Str) : Block :=
  let line := w.idx
  let pos := w.advance text
  let line1 := if pos ≠ line ∧ pos > -1 then pos else line
  newLinedBlock w.context text scope line1

/-- `(*walker).replaceToks` of `walk.go`: fold `href`/`id`/`src` attribute
values of `img`/`a`/`p`/`script` tags into the consumed context. -/
def Walker.replaceToks (w : Walker) (tok : Token) : Walker :=
  if [chars (r"img"), chars (r"a"), chars (r"p"), chars (r"script")].contains tok.data then
    let ctx := tok.attr.foldl
      (fun c a =>
        if a.1 = chars (r"href") ∨ a.1 = chars (r"id") ∨ a.1 = chars (r"src") then
          updateCtx c a.2 TokenType.text
        else c)
      w.context
    { w with context := ctx }
  else w

/-- The `append` of the earlier walker revision (`src/unnamed/part_003`),
which inlines the same two-tier search instead of delegating to `advance`. -/
def appendInl (w : Walker) (txt : Str) : Walker :=
  if txt = [] then w
  else
    let pos := (splitNl txt).foldl
      (fun _p s =>
        let p := strIndex w.context s
        if p < 0 then (fields s).foldl (fun _q ss => strIndex w.context ss) p
        else p)
      (0 : Int)
    let w1 :=
      if pos ≥ 0 then
        let l : Int := ((w.context.take pos.toNat).count '\n' : Nat)
        if l > w.idx then { w with idx := l } else w
      else w
    { w1 with queue := w1.queue ++ [txt] }

/-- `skipTags`: tags whose subtree is not linted (default configuration). -/
def skipTags : List Str :=
  [chars (r"script"), chars (r"style"), chars (r"pre"), chars (r"figure")]

/-- `skipClasses`: class values whose content is masked (default
configuration). -/
def skipClasses : List Str := [chars (r"problematic"), chars (r"pre")]

/-- `inlineTags`. -/
def inlineTags : List Str :=
  [chars (r"b"), chars (r"big"), chars (r"i"), chars (r"small"), chars (r"abbr"),
   chars (r"acronym"), chars (r"cite"), chars (r"dfn"), chars (r"em"), chars (r"kbd"),
   chars (r"strong"), chars (r"a"), chars (r"br"), chars (r"img"), chars (r"span"),
   chars (r"sub"), chars (r"sup"), chars (r"code"), chars (r"tt"), chars (r"del")]

/-- `tagToScope` as an association list. -/
def tagToScope : List (Str × Str) :=
  [(chars (r"th"), chars (r"text.table.header")),
   (chars (r"td"), chars (r"text.table.cell")),
   (chars (r"li"), chars (r"text.list")),
   (chars (r"blockquote"), chars (r"text.blockquote")),
   (chars (r"strong"), chars (r"strong")),
   (chars (r"b"), chars (r"strong")),
   (chars (r"a"), chars (r"link")),
   (chars (r"em"), chars (r"emphasis")),
   (chars (r"i"), chars (r"emphasis")),
   (chars (r"code"), chars (r"code"))]

/-- The default "skip content but keep flow" tag set (`skipped` in the
driver). -/
def skippedTags : List Str := [chars (r"tt"), chars (r"code")]

/-- Modelled from the spec: the `heading` pattern (the regular expression is
declared elsewhere in the repository, outside `src/`); per the spec a tag
"matches a heading pattern (h1–h6 style)", i.e. `h` followed by a digit. -/
def headingMatch (t : Str) : Bool :=
  match t with
  | ['h', d] => d.isDigit
  | _ => false

/-- `shouldBeSkipped`: for reStructuredText, walk `tagHistory` backward past
trailing `span` entries; the fragment is code content when the nearest
non-span ancestor is `tt` and is not the last history entry. -/
def shouldBeSkipped (tagHistory : List Str) (ext : Str) : Bool :=
  if ext = chars (r".rst") then
    let rev := tagHistory.reverse
    let dropped := (rev.takeWhile (fun t => t = chars (r"span"))).length
    match rev.dropWhile (fun t => t = chars (r"span")) with
    | [] => false
    | t :: _ => t = chars (r"tt") && dropped ≠ 0
  else false

/-- `codify`: wrap in the format's inline-code delimiter. -/
def codify (ext text : Str) : Str :=
  if ext = chars (r".md") ∨ ext = chars (r".adoc") then ['`'] ++ text ++ ['`']
  else if ext = chars (r".rst") then ['`', '`'] ++ text ++ ['`', '`']
  else text

/-- `clean`: mask skip/skip-class content (full-width `'*'` substitution plus
code delimiters) and pad inline fragments with one leading space unless the
fragment starts with punctuation and is not skip content. -/
def clean (txt ext : Str) (skip skipClass inl : Bool) : Str × Bool :=
  let punct : List Str := [['.'], ['?'], ['!'], [','], [':'], [';']]
  let starter :=
    (match txt with
     | c :: _ => punct.contains [c]
     | [] => false) && !skip
  let masked :=
    if skip || skipClass then (codify ext (substitute txt txt '*').1, false)
    else (txt, skip)
  let padded := if inl && !starter then ' ' :: masked.1 else masked.1
  (padded, masked.2)

/-- `checkClasses`: does any space-separated class in `attr` belong to the
ignore list? -/
def checkClasses (attr : Str) (ignore : List Str) : Bool :=
  (splitOnChar ' ' attr).any (fun c => ignore.contains c)

/-- `getAttribute`: first value bound to `key` in the token's attributes. -/
def getAttribute (tok : Token) (key : Str) : Str :=
  match tok.attr.find? (fun a => a.1 = key) with
  | some a => a.2
  | none => []

/-- The scope search of `lintScope`: walk `tagHistory` in order; the first tag
with a non-inline `tagToScope` entry or matching the heading pattern decides
the scope (suffixed with the document's format extension). -/
def resolveScope (ext : Str) : List Str → Option Str
  | [] => none
  | tag :: rest =>
    let entry := tagToScope.lookup tag
    if (entry.isSome && !(inlineTags.contains tag)) || headingMatch tag then
      some (match entry with
            | some scope => scope ++ ext
            | none => chars (r"text.heading.") ++ tag ++ ext)
    else resolveScope ext rest

/-- The linted file's cross-block state: original content, accumulated
summary, and the format extensions. -/
structure File where
  content : Str
  summary : Str
  normedExt : Str
  realExt : Str
deriving DecidableEq, Repr

/-- `lintScope`: emit a scoped block for the first matching history tag
(left-trimming spaces from the text), or fall through to prose — the text is
appended to the document summary and linted under the generic `txt` scope. -/
def lintScope (f : File) (state : Walker) (txt : Str) : File × Block :=
  match resolveScope f.realExt state.tagHistory with
  | some scope => (f, state.block (txt.dropWhile (fun c => c = ' ')) scope)
  | none =>
    ({ f with summary := f.summary ++ txt ++ [' '] },
     state.block txt (chars (r"txt")))

/-- The driver's loop state for `lintHTMLTokens`: the flags and buffer local
to the loop, the walker, the file, and the blocks emitted so far (in order of
emission to `lintText`/`lintProse`). -/
structure Driver where
  f : File
  attr : Str
  inBlock : Bool
  inl : Bool
  skip : Bool
  buf : Str
  w : Walker
  blocks : List Block
deriving DecidableEq, Repr

/-- The driver state at the top of `lintHTMLTokens` (default configuration:
no user-supplied tag/class/scope overrides). -/
def initDriver (f : File) : Driver :=
  { f := f, attr := [], inBlock := false, inl := false, skip := false,
    buf := [], w := newWalker f.content 0, blocks := [] }

/-- One iteration of the `lintHTMLTokens` loop (part_001 revision) for a
non-error token: the token-type dispatch chain, the block-boundary emission,
then the `attr` update, `replaceToks`, and `lintTags`. -/
def step (d : Driver) (tokt : TokenType) (tok : Token) : Driver :=
  let txt := trim tok.data
  let skipClass := checkClasses d.attr skipClasses
  let d1 :=
    if tokt = TokenType.startTag ∧ skipTags.contains txt then
      { d with inBlock := true }
    else if d.inBlock ∧ skipTags.contains txt then
      { d with inBlock := false }
    else if tokt = TokenType.startTag then
      { d with inl := inlineTags.contains txt,
               skip := skippedTags.contains txt,
               w := d.w.addTag txt }
    else if tokt = TokenType.endTag ∧ inlineTags.contains txt then
      { d with w := { d.w with activeTag := [] } }
    else if tokt = TokenType.comment then
      d
    else if tokt = TokenType.text then
      let skip1 := d.skip || shouldBeSkipped d.w.tagHistory d.f.normedExt
      let d2 :=
        match tagToScope.lookup d.w.activeTag with
        | some scope =>
          if inlineTags.contains d.w.activeTag then
            let tempCtx := updateContext d.w.context d.w.queue
            { d with blocks := d.blocks ++ [newBlock tempCtx txt scope],
                     w := { d.w with activeTag := [] } }
          else d
        | none => d
      let d3 := { d2 with w := d2.w.append txt }
      if ¬d3.inBlock ∧ txt ≠ [] then
        let r := clean txt d3.f.normedExt skip1 skipClass d3.inl
        { d3 with buf := d3.buf ++ r.1, skip := r.2 }
      else { d3 with skip := skip1 }
    else d
  let d4 :=
    if tokt = TokenType.endTag ∧ ¬inlineTags.contains txt then
      let content := d1.buf
      let d5 :=
        if trim content ≠ [] then
          let r := lintScope d1.f d1.w content
          { d1 with f := r.1, blocks := d1.blocks ++ [r.2] }
        else d1
      { d5 with w := d5.w.reset, buf := [] }
    else d1
  let d6 := { d4 with attr := getAttribute tok (chars (r"class")) }
  let d7 := { d6 with w := d6.w.replaceToks tok }
  if tok.data = chars (r"img") then
    tok.attr.foldl
      (fun dd a =>
        if a.1 = chars (r"alt") then
          { dd with blocks :=
              dd.blocks ++ [dd.w.block a.2 (chars (r"text.attr.alt"))] }
        else dd)
      d7
  else d7

/-- Run the driver loop over a token stream: an error token breaks the loop
before the per-iteration tail runs. -/
def runTokens (d : Driver) : List (TokenType × Token) → Driver
  | [] => d
  | (tokt, tok) :: rest =>
    if tokt = TokenType.error then d
    else runTokens (step d tokt tok) rest

/-- The unconditional end-of-stream emissions of `lintHTMLTokens`: the
`summary` block over the accumulated prose and the `raw` block over the full
original content. -/
def finishRun (d : Driver) : Driver :=
  { d with blocks := d.blocks ++
      [newBlock d.f.content d.f.summary (chars (r"summary.") ++ d.f.realExt),
       newBlock [] d.f.content (chars (r"raw.") ++ d.f.realExt)] }

/-- `lintHTMLTokens` (part_001 revision) over a pre-tokenized stream. -/
def lintHTMLTokens (f : File) (toks : List (TokenType × Token)) : Driver :=
  finishRun (runTokens (initDriver f) toks)

/-- The scope search as the spec words it: from the most recently opened tag
outward (innermost first), i.e. the implemented search run over the reversed
history.  Declared only to compare the specified order with the implemented
one. -/
def resolveScopeSpec (ext : Str) (hist : List Str) : Option Str :=
  resolveScope ext hist.reverse

/-- The condition under which a history tag decides the scope in
`lintScope`. -/
def scopeCond (t : Str) : Bool :=
  ((tagToScope.lookup t).isSome && !(inlineTags.contains t)) || headingMatch t

/-- The scope produced for a deciding history tag in `lintScope`. -/
def scopeOf (ext t : Str) : Str :=
  match tagToScope.lookup t with
  | some s => s ++ ext
  | none => chars (r"text.heading.") ++ t ++ ext

/-- Does the fragment start with one of the punctuation characters `clean`
checks? -/
def punctStarter (txt : Str) : Bool :=
  match txt with
  | c :: _ => [['.'], ['?'], ['!'], [','], [':'], [';']].contains [c]
  | [] => false

/-- Newline indicator, used to state that sentinel substitution preserves the
positions of all newline characters. -/
def nlMask (c : Char) : Bool := c == '\n'

/-- A Markdown file whose rendered HTML is
`<p>See <a href="x">the docs</a> for more.</p>`. -/
def c5File : File :=
  { content := chars (r"See [the docs](x) for more.") ++ ['\n'],
    summary := [], normedExt := chars (r".md"), realExt := chars (r".md") }

/-- The token stream the HTML tokenizer yields for
`<p>See <a href="x">the docs</a> for more.</p>`. -/
def c5Tokens : List (TokenType × Token) :=
  [(TokenType.startTag, { data := chars (r"p"), attr := [] }),
   (TokenType.text, { data := chars (r"See "), attr := [] }),
   (TokenType.startTag, { data := chars (r"a"), attr := [(chars (r"href"), chars (r"x"))] }),
   (TokenType.text, { data := chars (r"the docs"), attr := [] }),
   (TokenType.endTag, { data := chars (r"a"), attr := [] }),
   (TokenType.text, { data := chars (r" for more."), attr := [] }),
   (TokenType.endTag, { data := chars (r"p"), attr := [] }),
   (TokenType.error, { data := [], attr := [] })]

/-- A Markdown file whose rendered HTML is `<code>rm -rf /</code>`. -/
def c7File : File :=
  { content := ['`'] ++ chars (r"rm -rf /") ++ ['`', '\n'],
    summary := [], normedExt := chars (r".md"), realExt := chars (r".md") }

/-- The token stream for `<code>rm -rf /</code>`. -/
def c7Tokens : List (TokenType × Token) :=
  [(TokenType.startTag, { data := chars (r"code"), attr := [] }),
   (TokenType.text, { data := chars (r"rm -rf /"), attr := [] }),
   (TokenType.endTag, { data := chars (r"code"), attr := [] }),
   (TokenType.error, { data := [], attr := [] })]

/-- A walker whose document contains `hello world` exactly once, with the
word `world` also occurring later, and whose queue holds that fragment. -/
def w0 : Walker :=
  { lines := 0,
    context := chars (r"hello world") ++ ['\n'] ++ chars (r"world peace"),
    idx := 0, queue := [chars (r"hello world")], tagHistory := [],
    activeTag := [] }

/-- A walker whose document contains the single-word fragment `hello`
exactly once. -/
def w1 : Walker :=
  { lines := 0,
    context := chars (r"say") ++ ['\n'] ++ chars (r"hello there"),
    idx := 0, queue := [chars (r"hello")], tagHistory := [],
    activeTag := [] }

/-- A file used by the scope-resolution claims. -/
def c2File : File :=
  { content := chars (r"item"), summary := [], normedExt := chars (r".md"),
    realExt := chars (r".md") }

/-- A walker that opened `blockquote` first (outermost) and then `li`
(innermost, most recently opened). -/
def c2Walker : Walker :=
  { lines := 0, context := chars (r"item"), idx := 0, queue := [],
    tagHistory := [chars (r"blockquote"), chars (r"li")], activeTag := [] }

/-- A walker over a two-line document, used to witness cursor claims. -/
def cWalker : Walker :=
  { lines := 0, context := chars (r"a") ++ ['\n'] ++ chars (r"b"), idx := 0,
    queue := [], tagHistory := [], activeTag := [] }

/-- A driver state in suppressed-block mode. -/
def dSuppressed : Driver :=
  { f := c2File, attr := [], inBlock := true, inl := false, skip := false,
    buf := [], w := newWalker (chars (r"item")) 0, blocks := [] }

/-- A driver state at a block boundary with a whitespace-only buffer and
non-trivial per-block walker state. -/
def dBlank : Driver :=
  { f := c2File, attr := [], inBlock := false, inl := false, skip := false,
    buf := [' ', ' '],
    w := { lines := 0, context := chars (r"item"), idx := 0,
           queue := [[' ']], tagHistory := [chars (r"p")], activeTag := [] },
    blocks := [] }

/-- C5 counterexample: running the full driver on
`<p>See <a href="x">the docs</a> for more.</p>` produces four blocks whose
text contains `the docs` (link, paragraph prose, summary and raw), not
exactly two as claimed. -/
theorem c5_counterexample :
    ((lintHTMLTokens c5File c5Tokens).blocks.filter
        (fun b => containsStr b.text (chars (r"the docs")))).length = 4 := by
  decide

/-- C5 (amended): among the blocks emitted while processing the token stream
of `<p>See <a href="x">the docs</a> for more.</p>` (excluding the
unconditional end-of-stream summary and raw blocks), exactly two contain
`the docs`: one scoped `link`, linted against the transient context built
from the fragments accumulated so far (`See` consumed, but not `the docs`
itself), and one scoped `txt` holding the enclosing paragraph prose. -/
theorem c5_amended_double_lint :
    (runTokens (initDriver c5File) c5Tokens).blocks
      = [newBlock (chars (r"@@@ [the docs](@) for more.") ++ ['\n'])
           (chars (r"the docs")) (chars (r"link")),
         newLinedBlock (chars (r"See [the docs](@) for more.") ++ ['\n'])
           (chars (r"See the docs for more.")) (chars (r"txt")) 0]
    ∧ ((runTokens (initDriver c5File) c5Tokens).blocks.filter
        (fun b => containsStr b.text (chars (r"the docs")))).length = 2
    ∧ chars (r"@@@ [the docs](@) for more.") ++ ['\n']
        = updateContext (updateCtx c5File.content (chars (r"x")) TokenType.text)
            [chars (r"See")] := by
  decide

/-- C7: for `<code>rm -rf /</code>` in a Markdown file with the default
skip-content tag set, the text folded into the paragraph buffer is the
backtick-delimited full-width `'*'` mask of the fragment (with `clean`'s one
inline leading space); the mask interior has the same length as the original
text and the literal command text never reaches the buffer. -/
theorem c7_masking :
    (runTokens (initDriver c7File) c7Tokens).buf
        = [' '] ++ codify (chars (r".md")) (chars (r"********"))
    ∧ (chars (r"********")).length = (chars (r"rm -rf /")).length
    ∧ containsStr (runTokens (initDriver c7File) c7Tokens).buf
        (chars (r"rm -rf /")) = false
    ∧ (clean (chars (r"rm -rf /")) (chars (r".md")) true false true).1
        = [' '] ++ ['`'] ++ chars (r"********") ++ ['`'] := by
  decide

/-- C8 counterexample: `clean` on the inline fragment `.x` (not masked, so
per the claim it should receive the one-space padding) injects no space at
all, while the same fragment as skip-masked content (per the claim's
exception it should receive none) is padded. -/
theorem c8_counterexample :
    (clean (chars (r".x")) (chars (r".md")) false false true).1 = chars (r".x")
    ∧ (clean (chars (r".x")) (chars (r".md")) true false true).1
        = [' '] ++ codify (chars (r".md")) (chars (r"**")) := by
  decide

/-- C6 counterexample: in suppressed-block mode, a start tag whose name is in
the skip-tag set leaves the driver suppressed (`inBlock` stays true), rather
than exiting suppressed-block mode as claimed. -/
theorem c6_counterexample :
    (step dSuppressed TokenType.startTag
        { data := chars (r"pre"), attr := [] }).inBlock = true := by
  decide

/-- C2 counterexample: for `tagHistory = [blockquote, li]` (blockquote opened
first, li most recently), the innermost-first search the claim describes
resolves the list scope, but `lintScope` emits the blockquote scope — the
history is walked from the first-opened tag, not from the most recent one. -/
theorem c2_counterexample :
    (lintScope c2File c2Walker (chars (r"item"))).2.scope
        = chars (r"text.blockquote.md")
    ∧ resolveScopeSpec (chars (r".md"))
        [chars (r"blockquote"), chars (r"li")]
        = some (chars (r"text.list.md"))
    ∧ chars (r"text.blockquote.md") ≠ chars (r"text.list.md") := by
  decide

/-- C1 counterexample: the fragment `hello world` occurs exactly once in
`w0`'s document; after `reset` destructively consumes it, `advance` on the
identical fragment still reports position (line 1) rather than not-found,
because the per-word fallback tier matches the word `world` elsewhere. -/
theorem c1_counterexample :
    occurrencesCount w0.context (chars (r"hello world")) = 1
    ∧ Walker.advance (Walker.reset w0) (chars (r"hello world")) = 1 := by
  decide

/-- `advance` either reports not-found or a line strictly beyond the current
cursor. -/
lemma advance_cases (w : Walker) (t : Str) :
    Walker.advance w t = -1 ∨
    (Walker.advance w t ≥ 0 ∧ Walker.advance w t > w.idx) := by
  unfold Walker.advance
  simp only []
  split
  · split
    · rename_i h1 h2
      right
      exact ⟨le_trans (Int.ofNat_nonneg _) (le_refl _), h2⟩
    · left; rfl
  · left; rfl

/-- C10: the `append` of `walk.go` (delegating to `advance`) and the `append`
of part_003 (inlining the same search) take any walker state to the same
state; both are no-ops on the empty fragment, and neither touches the
context. -/
theorem c10_append_equiv (w : Walker) (t : Str) :
    Walker.append w t = appendInl w t
    ∧ Walker.append w [] = w
    ∧ (Walker.append w t).context = w.context := by
  refine ⟨?_, by simp [Walker.append], ?_⟩
  · by_cases ht : t = []
    · simp [Walker.append, appendInl, ht]
    · unfold Walker.append appendInl Walker.advance
      simp only [ht, if_false]
      generalize ((splitNl t).foldl _ (0 : Int)) = sp
      by_cases h1 : sp ≥ 0
      · simp only [h1, if_true, if_pos h1]
        by_cases h2 : ((w.context.take sp.toNat).count '\n' : Int) > w.idx
        · have h3 : ((w.context.take sp.toNat).count '\n' : Int) > -1 := by
            have := Int.ofNat_nonneg ((w.context.take sp.toNat).count '\n')
            omega
          simp [h2, h3]
        · simp [h2]
      · simp [h1]
  · by_cases ht : t = []
    · simp [Walker.append, ht]
    · unfold Walker.append
      simp only [ht, if_false]
      split <;> rfl

/-- A single `append` never lowers the cursor. -/
lemma append_idx_le (w : Walker) (t : Str) : w.idx ≤ (Walker.append w t).idx := by
  by_cases ht : t = []
  · simp [Walker.append, ht]
  · unfold Walker.append
    simp only [ht, if_false]
    rcases advance_cases w t with h | h
    · simp [h]
    · have h1 : Walker.advance w t > -1 := by omega
      simp only [h1, if_pos]
      simp
      omega

/-- The cursor is monotone across any sequence of `append` calls. -/
lemma foldl_append_idx_le (ts : List Str) :
    ∀ w : Walker, w.idx ≤ (ts.foldl Walker.append w).idx := by
  induction ts with
  | nil => intro w; simp
  | cons t rest ih =>
    intro w
    calc w.idx ≤ (Walker.append w t).idx := append_idx_le w t
      _ ≤ (rest.foldl Walker.append (Walker.append w t)).idx := ih _

/-- C3: within a block's accumulation the line cursor never decreases across
successive `append` calls; `advance` returns a computed line only when it
strictly exceeds the current cursor, and when it reports not-found the
cursor is left unchanged by `append`. -/
theorem c3_monotonic_cursor (w : Walker) (ts : List Str) (t : Str) :
    w.idx ≤ (ts.foldl Walker.append w).idx
    ∧ (Walker.advance w t ≠ -1 → w.idx < Walker.advance w t)
    ∧ (Walker.advance w t = -1 → (Walker.append w t).idx = w.idx) := by
  refine ⟨foldl_append_idx_le ts w, ?_, ?_⟩
  · intro h
    rcases advance_cases w t with h1 | h1
    · exact absurd h1 h
    · omega
  · intro h
    by_cases ht : t = []
    · simp [Walker.append, ht]
    · unfold Walker.append
      simp only [ht, if_false]
      have h1 : ¬ (Walker.advance w t > -1) := by omega
      simp [h1]

/-- C3 witness: on the two-line document `a\nb` with the cursor at 0,
`advance` on `b` exceeds the cursor, and `append` of the unfindable fragment
`zz` leaves the cursor unchanged. -/
theorem c3_monotonic_cursor_witness :
    cWalker.idx < Walker.advance cWalker (chars (r"b"))
    ∧ (Walker.append cWalker (chars (r"zz"))).idx = cWalker.idx := by
  refine ⟨(c3_monotonic_cursor cWalker [] (chars (r"b"))).2.1 (by decide),
    (c3_monotonic_cursor cWalker [] (chars (r"zz"))).2.2 (by decide)⟩

/-- C6 (amended): while the driver is suppressed, a start tag matching a
skip-tag re-enters suppressed-block mode (it remains suppressed); it is a
non-start token matching a skip-tag — in particular the end tag — that exits
suppressed-block mode. -/
theorem c6_amended_skip_toggle (d : Driver) (tok : Token)
    (hib : d.inBlock = true)
    (hskip : skipTags.contains (trim tok.data) = true) :
    (step d TokenType.startTag tok).inBlock = true
    ∧ (step d TokenType.endTag tok).inBlock = false := by
  have himg : tok.data ≠ chars (r"img") := by
    intro h
    rw [h] at hskip
    revert hskip
    decide
  have hmem : trim tok.data ∈ skipTags := by
    simpa using hskip
  constructor
  · unfold step
    simp [hmem, hib, himg]
  · unfold step
    simp [hmem, hib, himg]
    split
    · simp
    · split <;> simp

/-- C6 witness: a suppressed driver sees `<pre>` and stays suppressed, and
sees `</pre>` and exits. -/
theorem c6_amended_skip_toggle_witness :
    (step dSuppressed TokenType.startTag
        { data := chars (r"pre"), attr := [] }).inBlock = true
    ∧ (step dSuppressed TokenType.endTag
        { data := chars (r"pre"), attr := [] }).inBlock = false :=
  c6_amended_skip_toggle dSuppressed { data := chars (r"pre"), attr := [] }
    (by decide) (by decide)

/-- `replaceToks` only rewrites the context: the queue is untouched. -/
lemma replaceToks_queue (w : Walker) (tok : Token) :
    (Walker.replaceToks w tok).queue = w.queue := by
  unfold Walker.replaceToks
  split <;> rfl

/-- `replaceToks` only rewrites the context: the tag history is untouched. -/
lemma replaceToks_tagHistory (w : Walker) (tok : Token) :
    (Walker.replaceToks w tok).tagHistory = w.tagHistory := by
  unfold Walker.replaceToks
  split <;> rfl

/-- C9: at a block boundary (end tag of a non-inline tag) with a blank
(whitespace-only) paragraph buffer, no block is emitted, yet the walker's
per-block state (queue, tag history) and the buffer are still reset. -/
theorem c9_blank_boundary (d : Driver) (tok : Token)
    (hni : inlineTags.contains (trim tok.data) = false)
    (hblank : trim d.buf = []) :
    (step d TokenType.endTag tok).blocks = d.blocks
    ∧ (step d TokenType.endTag tok).w.queue = []
    ∧ (step d TokenType.endTag tok).w.tagHistory = []
    ∧ (step d TokenType.endTag tok).buf = [] := by
  have himg : tok.data ≠ chars (r"img") := by
    intro h
    rw [h] at hni
    revert hni
    decide
  have hmem : trim tok.data ∉ inlineTags := by
    simpa using hni
  unfold step
  simp [hmem, himg, hblank, Walker.reset, replaceToks_queue, replaceToks_tagHistory]
  split <;> simp [replaceToks_queue, replaceToks_tagHistory]

/-- C9 witness: a `</p>` boundary over a whitespace-only buffer emits no
block while clearing the queue, the tag history and the buffer. -/
theorem c9_blank_boundary_witness :
    (step dBlank TokenType.endTag { data := chars (r"p"), attr := [] }).blocks
        = dBlank.blocks
    ∧ (step dBlank TokenType.endTag { data := chars (r"p"), attr := [] }).w.queue = []
    ∧ (step dBlank TokenType.endTag { data := chars (r"p"), attr := [] }).w.tagHistory = []
    ∧ (step dBlank TokenType.endTag { data := chars (r"p"), attr := [] }).buf = [] :=
  c9_blank_boundary dBlank { data := chars (r"p"), attr := [] }
    (by decide) (by decide)

/-- C2 (amended): scope resolution walks `tagHistory` in the order the tags
were opened (outermost first); the first tag with a non-inline `tagToScope`
entry or a heading-pattern match decides the scope and the search stops
there. -/
theorem c2_amended_scope_order (ext : Str) (pre : List Str) (tag : Str)
    (rest : List Str)
    (hpre : ∀ t ∈ pre, scopeCond t = false) (htag : scopeCond tag = true) :
    resolveScope ext (pre ++ tag :: rest) = some (scopeOf ext tag) := by
  induction pre with
  | nil =>
    simp only [List.nil_append]
    unfold resolveScope
    have hc : (((tagToScope.lookup tag).isSome && !(inlineTags.contains tag))
        || headingMatch tag) = true := htag
    simp only [hc, if_true]
    rfl
  | cons p ps ih =>
    have hp : scopeCond p = false := hpre p (List.mem_cons_self p ps)
    have hc : (((tagToScope.lookup p).isSome && !(inlineTags.contains p))
        || headingMatch p) = false := hp
    simp only [List.cons_append]
    unfold resolveScope
    simp only [hc, if_false]
    exact ih (fun t ht => hpre t (List.mem_cons_of_mem p ht))

/-- C2 witness: for `tagHistory = [ul, li, p]` with `li` mapped to the list
scope and neither `ul` nor `p` deciding, the resolved scope is the list
scope. -/
theorem c2_amended_scope_order_witness :
    resolveScope (chars (r".md"))
        [chars (r"ul"), chars (r"li"), chars (r"p")]
      = some (chars (r"text.list.md")) := by
  have h := c2_amended_scope_order (chars (r".md")) [chars (r"ul")]
    (chars (r"li")) [chars (r"p")] (by decide) (by decide)
  have he : scopeOf (chars (r".md")) (chars (r"li"))
      = chars (r"text.list.md") := by decide
  rw [he] at h
  exact h

/-- `clean` in closed form: the payload is the (possibly masked and
codified) fragment, padded with one leading space exactly when the fragment
is inline and not an unmasked punctuation starter. -/
lemma clean_unfold (txt ext : Str) (sk sc inl : Bool) :
    clean txt ext sk sc inl
      = (if inl && !(punctStarter txt && !sk)
          then ' ' :: (if sk || sc then codify ext (substitute txt txt '*').1 else txt)
          else (if sk || sc then codify ext (substitute txt txt '*').1 else txt),
         if sk || sc then false else sk) := by
  unfold clean punctStarter
  rcases txt with _ | ⟨c, t⟩ <;> rcases sk <;> rcases sc <;> rcases inl <;> simp

/-- C8 (amended): an inline fragment is rejoined with exactly one injected
leading space unless its own first character is one of
`.`, `?`, `!`, `,`, `:`, `;` and the fragment is not skip-content
(`skip = false`); a skip-masked fragment always receives the space, while a
punctuation-led fragment that is not skip-content (including skip-class
masked content) receives none. -/
theorem c8_amended_padding (txt ext : Str) (sk sc : Bool) :
    ((sk = true ∨ punctStarter txt = false) →
      (clean txt ext sk sc true).1
        = ' ' :: (if sk || sc then codify ext (substitute txt txt '*').1 else txt))
    ∧ (sk = false → punctStarter txt = true →
      (clean txt ext sk sc true).1
        = (if sc then codify ext (substitute txt txt '*').1 else txt)) := by
  rw [clean_unfold]
  constructor
  · rintro (h | h) <;> simp [h]
  · intro h1 h2
    simp [h1, h2]

/-- C8 witness: the inline fragment `ab` is padded with one space, and the
punctuation-led unmasked fragment `.x` is not. -/
theorem c8_amended_padding_witness :
    (clean (chars (r"ab")) (chars (r".md")) false false true).1
        = ' ' :: chars (r"ab")
    ∧ (clean (chars (r".x")) (chars (r".md")) false false true).1
        = chars (r".x") := by
  constructor
  · have h := (c8_amended_padding (chars (r"ab")) (chars (r".md")) false false).1
      (Or.inr (by decide))
    simpa using h
  · have h := (c8_amended_padding (chars (r".x")) (chars (r".md")) false false).2
      (by decide) (by decide)
    simpa using h
/-- The index `firstIndex?` reports is an occurrence. -/
lemma firstIndex?_occurs (sub : Str) :
    ∀ (s : Str) (i : Nat), firstIndex? s sub = some i → occursAt s sub i = true := by
  intro s
  induction s with
  | nil =>
    intro i h
    unfold firstIndex? at h
    split at h
    · rename_i hp
      simp only [Option.some.injEq] at h
      subst h
      simpa [occursAt] using hp
    · cases h
  | cons c t ih =>
    intro i h
    unfold firstIndex? at h
    split at h
    · rename_i hp
      simp only [Option.some.injEq] at h
      subst h
      simpa [occursAt] using hp
    · rename_i hp
      rcases Option.map_eq_some'.mp h with ⟨j, hj, rfl⟩
      have := ih j hj
      simpa [occursAt] using this

/-- An occurrence splits the suffix at the occurrence point. -/
lemma occursAt_decomp (s sub : Str) (i : Nat) (h : occursAt s sub i = true) :
    s.drop i = sub ++ s.drop (i + sub.length) := by
  unfold occursAt at h
  have hp : sub <+: s.drop i := by
    exact List.isPrefixOf_iff_prefix.mp h
  have he : sub = (s.drop i).take sub.length := by
    exact List.prefix_iff_eq_take.mp hp
  calc s.drop i = (s.drop i).take sub.length ++ (s.drop i).drop sub.length := by
        rw [List.take_append_drop]
    _ = sub ++ s.drop (i + sub.length) := by
        rw [← he, List.drop_drop, Nat.add_comm]

/-- An occurrence splits the whole string around the matched span. -/
lemma occursAt_full_decomp (s sub : Str) (i : Nat) (h : occursAt s sub i = true) :
    s = s.take i ++ sub ++ s.drop (i + sub.length) := by
  calc s = s.take i ++ s.drop i := by rw [List.take_append_drop]
    _ = s.take i ++ (sub ++ s.drop (i + sub.length)) := by rw [occursAt_decomp s sub i h]
    _ = s.take i ++ sub ++ s.drop (i + sub.length) := by rw [List.append_assoc]

/-- Sentinel substitution with a non-newline sentinel preserves the
positions of all newline characters (hence also the total length). -/
lemma substitute_nl_map (src sub : Str) (ch : Char) (hch : ch ≠ '\n') :
    ((substitute src sub ch).1).map nlMask = src.map nlMask := by
  unfold substitute
  cases hfi : firstIndex? src sub with
  | none => rfl
  | some i =>
    simp only []
    have hocc := firstIndex?_occurs sub src i hfi
    conv_rhs => rw [occursAt_full_decomp src sub i hocc]
    simp only [List.map_append, List.map_map]
    congr 1
    congr 1
    apply List.map_congr_left
    intro c _
    simp only [Function.comp_apply, nlMask]
    by_cases hc : c = '\n'
    · simp [hc]
    · simp [hc, hch]

/-- Word-by-word substitution preserves the newline profile. -/
lemma foldl_substitute_nl_map (ws : List Str) :
    ∀ ctx : Str, ((ws.foldl (fun c2 w => (substitute c2 w '@').1) ctx)).map nlMask
      = ctx.map nlMask := by
  induction ws with
  | nil => intro ctx; rfl
  | cons v t ih =>
    intro ctx
    rw [List.foldl_cons, ih, substitute_nl_map]
    decide

/-- `updateCtx` preserves the newline profile of the context. -/
lemma updateCtx_nl_map (ctx txt : Str) (tokt : TokenType) :
    (updateCtx ctx txt tokt).map nlMask = ctx.map nlMask := by
  unfold updateCtx
  split
  · generalize splitNl txt = lines
    induction lines generalizing ctx with
    | nil => rfl
    | cons s t ih =>
      rw [List.foldl_cons]
      rw [ih]
      change List.map nlMask
        (if (substitute ctx s '@').2 = true then (substitute ctx s '@').1
         else List.foldl (fun c2 w => (substitute c2 w '@').1)
           (substitute ctx s '@').1 (fields s)) = List.map nlMask ctx
      split
      · rw [substitute_nl_map]
        decide
      · rw [foldl_substitute_nl_map, substitute_nl_map]
        decide
  · rfl

/-- `updateContext` preserves the newline profile of the context. -/
lemma updateContext_nl_map (queue : List Str) :
    ∀ ctx : Str, (updateContext ctx queue).map nlMask = ctx.map nlMask := by
  induction queue with
  | nil => intro ctx; rfl
  | cons s t ih =>
    intro ctx
    unfold updateContext at *
    rw [List.foldl_cons, ih, updateCtx_nl_map]

/-- C4: for every queue of fragments, `reset`'s destructive consume keeps
the total length of the remaining context and the positions of all newline
characters unchanged (each matched span is overwritten in place by the
fixed-width `'@'` sentinel sequence), and afterwards the queue and the tag
history are empty. -/
theorem c4_reset_sentinel (w : Walker) :
    (Walker.reset w).context.length = w.context.length
    ∧ (Walker.reset w).context.map nlMask = w.context.map nlMask
    ∧ (Walker.reset w).queue = [] ∧ (Walker.reset w).tagHistory = [] := by
  have hm : (Walker.reset w).context.map nlMask = w.context.map nlMask := by
    unfold Walker.reset
    simp only []
    exact updateContext_nl_map w.queue w.context
  refine ⟨?_, hm, rfl, rfl⟩
  have := congrArg List.length hm
  simpa using this
/-- Occurrences shift across a cons. -/
lemma occursAt_cons_succ (c : Char) (t sub : Str) (j : Nat) :
    occursAt (c :: t) sub (j + 1) = occursAt t sub j := rfl

/-- The search fails exactly when there is no occurrence anywhere. -/
lemma firstIndex?_eq_none_iff (sub : Str) :
    ∀ s : Str, firstIndex? s sub = none ↔ ∀ j, occursAt s sub j = false := by
  intro s
  induction s with
  | nil =>
    unfold firstIndex?
    constructor
    · intro h j
      split at h
      · cases h
      · rename_i hp
        unfold occursAt
        rw [List.drop_nil]
        exact Bool.eq_false_iff.mpr hp
    · intro h
      split
      · rename_i hp
        have := h 0
        unfold occursAt at this
        simp at this
        rw [this] at hp
        cases hp
      · rfl
  | cons c t ih =>
    unfold firstIndex?
    constructor
    · intro h j
      split at h
      · cases h
      · rename_i hp
        cases j with
        | zero =>
          unfold occursAt
          rw [List.drop_zero]
          exact Bool.eq_false_iff.mpr hp
        | succ k =>
          rw [occursAt_cons_succ]
          have hn : firstIndex? t sub = none := by
            cases hfi : firstIndex? t sub with
            | none => rfl
            | some m => rw [hfi] at h; cases h
          exact (ih.mp hn) k
    · intro h
      split
      · rename_i hp
        have := h 0
        unfold occursAt at this
        simp only [List.drop] at this
        rw [this] at hp
        cases hp
      · have hn : ∀ j, occursAt t sub j = false := by
          intro j
          have := h (j + 1)
          rwa [occursAt_cons_succ] at this
        rw [ih.mpr hn]
        rfl

/-- A nonempty pattern occurs only at positions inside the string. -/
lemma occurs_lt_length (s sub : Str) (i : Nat) (hne : sub ≠ [])
    (h : occursAt s sub i = true) : i < s.length := by
  unfold occursAt at h
  have hp : sub <+: s.drop i := List.isPrefixOf_iff_prefix.mp h
  by_contra hge
  push_neg at hge
  have : s.drop i = [] := List.drop_eq_nil_of_le hge
  rw [this] at hp
  exact hne (List.prefix_nil.mp hp)

/-- An occurrence of a nonempty pattern fits inside the string. -/
lemma occurs_le_length (s sub : Str) (i : Nat) (hne : sub ≠ [])
    (h : occursAt s sub i = true) : i + sub.length ≤ s.length := by
  unfold occursAt at h
  have hp : sub <+: s.drop i := List.isPrefixOf_iff_prefix.mp h
  have h1 : sub.length ≤ (s.drop i).length := hp.length_le
  rw [List.length_drop] at h1
  have h2 := occurs_lt_length s sub i hne h
  omega

/-- When a pattern occurs exactly once, any two occurrences coincide. -/
lemma occurs_unique (s sub : Str) (a b : Nat) (hne : sub ≠ [])
    (hcnt : occurrencesCount s sub = 1)
    (ha : occursAt s sub a = true) (hb : occursAt s sub b = true) : a = b := by
  unfold occurrencesCount at hcnt
  rcases List.length_eq_one.mp hcnt with ⟨x, hx⟩
  have hma : a ∈ (List.range (s.length + 1)).filter (fun i => occursAt s sub i) := by
    rw [List.mem_filter, List.mem_range]
    exact ⟨by have := occurs_lt_length s sub a hne ha; omega, ha⟩
  have hmb : b ∈ (List.range (s.length + 1)).filter (fun i => occursAt s sub i) := by
    rw [List.mem_filter, List.mem_range]
    exact ⟨by have := occurs_lt_length s sub b hne hb; omega, hb⟩
  rw [hx] at hma hmb
  simp at hma hmb
  rw [hma, hmb]

/-- A pattern counted once does occur. -/
lemma occurs_exists (s sub : Str) (hcnt : occurrencesCount s sub = 1) :
    ∃ i, occursAt s sub i = true := by
  unfold occurrencesCount at hcnt
  rcases List.length_eq_one.mp hcnt with ⟨x, hx⟩
  have : x ∈ (List.range (s.length + 1)).filter (fun i => occursAt s sub i) := by
    rw [hx]; exact List.mem_singleton_self x
  rw [List.mem_filter] at this
  exact ⟨x, this.2⟩

/-- An occurrence makes the search succeed. -/
lemma firstIndex?_isSome_of_occurs (s sub : Str) (j : Nat)
    (h : occursAt s sub j = true) : (firstIndex? s sub).isSome := by
  cases hfi : firstIndex? s sub with
  | some i => rfl
  | none =>
    have := ((firstIndex?_eq_none_iff sub s).mp hfi) j
    rw [h] at this
    cases this

/-- A prefix of an append that fits in the left part is a prefix of it. -/
lemma prefix_of_append_le (p x y : Str) (h : p <+: x ++ y)
    (hl : p.length ≤ x.length) : p <+: x := by
  have he : p = (x ++ y).take p.length := List.prefix_iff_eq_take.mp h
  rw [List.take_append_of_le_length hl] at he
  rw [he]
  exact List.take_prefix _ _

/-- Prefixes extend along appends. -/
lemma prefix_append_of_prefix (p x y : Str) (h : p <+: x) : p <+: x ++ y := by
  rcases h with ⟨t, ht⟩
  exact ⟨t ++ y, by rw [← List.append_assoc, ht]⟩

/-- A prefix agrees with the string position by position. -/
lemma prefix_getElem? (p s : Str) (h : p <+: s) (k : Nat) (hk : k < p.length) :
    s[k]? = p[k]? := by
  have he : p = s.take p.length := List.prefix_iff_eq_take.mp h
  conv_rhs => rw [he]
  rw [List.getElem?_take]
  rw [if_pos hk]

/-- Inside the masked span every character is the sentinel. -/
lemma masked_getElem (A M B : Str) (q : Nat)
    (hM : ∀ c ∈ M, c = '@')
    (h1 : A.length ≤ q) (h2 : q < A.length + M.length) :
    (A ++ (M ++ B))[q]? = some '@' := by
  rw [List.getElem?_append_right h1]
  have hlt : q - A.length < M.length := by omega
  rw [List.getElem?_append, if_pos hlt]
  rw [List.getElem?_eq_getElem hlt]
  have := List.getElem_mem hlt
  rw [hM _ this]

/-- Dropping within the left part of an append. -/
lemma drop_append_outside (A X : Str) (j : Nat) (h : j ≤ A.length) :
    (A ++ X).drop j = A.drop j ++ X := by
  rw [List.drop_append_eq_append_drop]
  rw [Nat.sub_eq_zero_of_le h]
  rfl

/-- Key lemma: an occurrence of a sentinel-free nonempty pattern in the
masked string is an occurrence in the original string that is disjoint from
the masked span. -/
lemma masked_occurrence (A M B S p : Str) (j : Nat)
    (hlen : S.length = M.length) (hM0 : M ≠ [])
    (hM : ∀ c ∈ M, c = '@') (hp : '@' ∉ p) (hpne : p ≠ [])
    (hj : occursAt (A ++ (M ++ B)) p j = true) :
    occursAt (A ++ (S ++ B)) p j = true
    ∧ (j + p.length ≤ A.length ∨ A.length + M.length ≤ j) := by
  have hplen : 0 < p.length := List.length_pos.mpr hpne
  have hMlen : 0 < M.length := List.length_pos.mpr hM0
  have hpre : p <+: (A ++ (M ++ B)).drop j := List.isPrefixOf_iff_prefix.mp hj
  by_cases hc1 : j + p.length ≤ A.length
  · have hjA : j ≤ A.length := by omega
    rw [drop_append_outside A (M ++ B) j hjA] at hpre
    have hple : p.length ≤ (A.drop j).length := by
      rw [List.length_drop]; omega
    have hpA : p <+: A.drop j := prefix_of_append_le p _ _ hpre hple
    refine ⟨?_, Or.inl hc1⟩
    unfold occursAt
    apply List.isPrefixOf_iff_prefix.mpr
    rw [drop_append_outside A (S ++ B) j hjA]
    exact prefix_append_of_prefix p _ _ hpA
  · by_cases hc2 : A.length + M.length ≤ j
    · have hd1 : (A ++ (M ++ B)).drop j = B.drop (j - A.length - M.length) := by
        rw [List.drop_append_eq_append_drop]
        rw [List.drop_eq_nil_of_le (by omega : A.length ≤ j)]
        rw [List.nil_append]
        rw [List.drop_append_eq_append_drop]
        rw [List.drop_eq_nil_of_le (by omega : M.length ≤ j - A.length)]
        rw [List.nil_append]
      have hd2 : (A ++ (S ++ B)).drop j = B.drop (j - A.length - M.length) := by
        rw [List.drop_append_eq_append_drop]
        rw [List.drop_eq_nil_of_le (by omega : A.length ≤ j)]
        rw [List.nil_append]
        rw [List.drop_append_eq_append_drop]
        rw [List.drop_eq_nil_of_le (by omega : S.length ≤ j - A.length)]
        rw [List.nil_append]
        congr 1
        omega
      refine ⟨?_, Or.inr hc2⟩
      unfold occursAt
      unfold occursAt at hj
      rw [hd2, ← hd1]
      exact hj
    · exfalso
      push_neg at hc1 hc2
      have key : ∀ k, k < p.length → A.length ≤ j + k → j + k < A.length + M.length →
          False := by
        intro k hk h1 h2
        have hq := masked_getElem A M B (j + k) hM h1 h2
        have hs := prefix_getElem? p _ hpre k hk
        rw [List.getElem?_drop] at hs
        rw [hq] at hs
        have : '@' ∈ p := by
          rcases List.getElem?_eq_some.mp hs.symm with ⟨hlt, hval⟩
          rw [← hval]
          exact List.getElem_mem hlt
        exact hp this
      by_cases hjA : A.length ≤ j
      · exact key 0 (by omega) (by omega) (by omega)
      · push_neg at hjA
        exact key (A.length - j) (by omega) (by omega) (by omega)

/-- Every word `fieldsAux` yields is an infix of the remaining input
(prefixed by the pending accumulator). -/
lemma fieldsAux_infix (s : Str) :
    ∀ (acc v : Str), v ∈ fieldsAux acc s → v <:+: (acc.reverse ++ s) := by
  induction s with
  | nil =>
    intro acc v hv
    unfold fieldsAux at hv
    split at hv
    · cases hv
    · rw [List.mem_singleton] at hv
      subst hv
      simp
  | cons c t ih =>
    intro acc v hv
    unfold fieldsAux at hv
    split at hv
    · split at hv
      · rename_i hsp hacc
        subst hacc
        have := ih [] v hv
        simp only [List.reverse_nil, List.nil_append] at this ⊢
        exact this.trans (List.infix_cons (List.infix_refl t))
      · rename_i hsp hacc
        rcases List.mem_cons.mp hv with hv | hv
        · subst hv
          exact ((List.prefix_append acc.reverse (c :: t)).isInfix)
        · have := ih [] v hv
          simp only [List.reverse_nil, List.nil_append] at this
          have h2 : t <:+: acc.reverse ++ c :: t := by
            refine ⟨acc.reverse ++ [c], [], ?_⟩
            simp
          exact this.trans h2
    · rename_i hsp
      have := ih (c :: acc) v hv
      rw [List.reverse_cons] at this
      rw [List.append_assoc] at this
      simpa using this

/-- `fieldsAux` yields no empty word. -/
lemma fieldsAux_ne_nil (s : Str) :
    ∀ (acc v : Str), v ∈ fieldsAux acc s → v ≠ [] := by
  induction s with
  | nil =>
    intro acc v hv
    unfold fieldsAux at hv
    split at hv
    · cases hv
    · rename_i hacc
      rw [List.mem_singleton] at hv
      subst hv
      simpa using hacc
  | cons c t ih =>
    intro acc v hv
    unfold fieldsAux at hv
    split at hv
    · split at hv
      · exact ih [] v hv
      · rename_i hsp hacc
        rcases List.mem_cons.mp hv with hv | hv
        · subst hv
          simpa using hacc
        · exact ih [] v hv
    · exact ih (c :: acc) v hv

/-- Every word of `fields s` is an infix of `s`. -/
lemma fields_infix (s v : Str) (h : v ∈ fields s) : v <:+: s := by
  have := fieldsAux_infix s [] v h
  simpa using this

/-- `fields` yields no empty word. -/
lemma fields_ne_nil (s v : Str) (h : v ∈ fields s) : v ≠ [] :=
  fieldsAux_ne_nil s [] v h

/-- A newline-free string splits into just itself. -/
lemma splitNl_no_newline (s : Str) (h : '\n' ∉ s) : splitNl s = [s] := by
  unfold splitNl
  induction s with
  | nil => rfl
  | cons c t ih =>
    have hc : c ≠ '\n' := fun hc => h (hc ▸ List.mem_cons_self c t)
    have ht : '\n' ∉ t := fun ht => h (List.mem_cons_of_mem c ht)
    unfold splitOnChar
    rw [ih ht]
    simp [hc]

/-- An infix of an occurring pattern occurs within the pattern's span. -/
lemma occursAt_of_infix_occurs (ctx sub v : Str) (i : Nat)
    (hocc : occursAt ctx sub i = true) (hinf : v <:+: sub) :
    ∃ off, occursAt ctx v (i + off) = true ∧ off + v.length ≤ sub.length := by
  rcases hinf with ⟨u, w', huw⟩
  refine ⟨u.length, ?_, ?_⟩
  · unfold occursAt
    apply List.isPrefixOf_iff_prefix.mpr
    have hd := occursAt_decomp ctx sub i hocc
    have : ctx.drop (i + u.length) = (ctx.drop i).drop u.length := by
      rw [List.drop_drop, Nat.add_comm]
    rw [this, hd, ← huw]
    rw [List.append_assoc]
    rw [List.drop_append_eq_append_drop]
    rw [Nat.sub_eq_zero_of_le (by simp), List.drop_zero]
    rw [show List.drop u.length (u ++ v) = v from List.drop_left u v]
    exact List.prefix_append v _
  · rw [← huw]
    simp

/-- `strIndex` reports `-1` when the pattern occurs nowhere. -/
lemma strIndex_neg (s sub : Str) (h : ∀ j, occursAt s sub j = false) :
    strIndex s sub = -1 := by
  unfold strIndex
  rw [(firstIndex?_eq_none_iff sub s).mpr h]

/-- The per-word fallback search stays at `-1` when every word is
unfindable. -/
lemma foldl_words_neg (ctx : Str) (ws : List Str) :
    ∀ init : Int, init = -1 → (∀ v ∈ ws, strIndex ctx v = -1) →
    ws.foldl (fun _q ss => strIndex ctx ss) init = -1 := by
  induction ws with
  | nil => intro init h _; exact h
  | cons v t ih =>
    intro init _ hall
    rw [List.foldl_cons]
    exact ih _ (hall v (List.mem_cons_self v t))
      (fun u hu => hall u (List.mem_cons_of_mem v hu))

/-- After the unique occurrence of a newline- and sentinel-free fragment is
masked, neither the fragment nor any of its once-occurring words occurs
anywhere in the context. -/
lemma no_occurrence_after_mask (ctx sub : Str)
    (hne : sub ≠ []) (hnl : '\n' ∉ sub) (hat : '@' ∉ sub)
    (hcnt : occurrencesCount ctx sub = 1)
    (hwords : ∀ v ∈ fields sub, occurrencesCount ctx v = 1) :
    (∀ j, occursAt (substitute ctx sub '@').1 sub j = false)
    ∧ (∀ v ∈ fields sub, ∀ j, occursAt (substitute ctx sub '@').1 v j = false) := by
  rcases occurs_exists ctx sub hcnt with ⟨j0, hj0⟩
  rcases Option.isSome_iff_exists.mp
    (firstIndex?_isSome_of_occurs ctx sub j0 hj0) with ⟨i, hfi⟩
  have hocci : occursAt ctx sub i = true := firstIndex?_occurs sub ctx i hfi
  have hA : (ctx.take i).length = i := by
    rw [List.length_take]
    have := occurs_lt_length ctx sub i hne hocci
    omega
  have hctx : ctx = ctx.take i ++ (sub ++ ctx.drop (i + sub.length)) := by
    have := occursAt_full_decomp ctx sub i hocci
    rw [List.append_assoc] at this
    exact this
  have hctx1 : (substitute ctx sub '@').1
      = ctx.take i ++ (sub.map (fun c => if c = '\n' then c else '@')
          ++ ctx.drop (i + sub.length)) := by
    simp only [substitute, hfi]
    rw [List.append_assoc]
  have hM : ∀ c ∈ sub.map (fun c => if c = '\n' then c else '@'), c = '@' := by
    intro c hc
    rcases List.mem_map.mp hc with ⟨x, hx, rfl⟩
    have hxn : x ≠ '\n' := fun h => hnl (h ▸ hx)
    simp [hxn]
  have hM0 : sub.map (fun c => if c = '\n' then c else '@') ≠ [] := by
    simpa using hne
  have hlen : sub.length = (sub.map (fun c => if c = '\n' then c else '@')).length := by
    rw [List.length_map]
  constructor
  · intro j
    cases hj : occursAt (substitute ctx sub '@').1 sub j with
    | false => rfl
    | true =>
      exfalso
      rw [hctx1] at hj
      have hm := masked_occurrence (ctx.take i) _ _ sub sub j hlen hM0 hM hat hne hj
      rw [← hctx] at hm
      have hji : j = i := occurs_unique ctx sub j i hne hcnt hm.1 hocci
      rcases hm.2 with h | h
      · rw [hji, hA] at h
        have := List.length_pos.mpr hne
        omega
      · rw [hji, hA, ← hlen] at h
        have := List.length_pos.mpr hne
        omega
  · intro v hv j
    cases hj : occursAt (substitute ctx sub '@').1 v j with
    | false => rfl
    | true =>
      exfalso
      have hvne : v ≠ [] := fields_ne_nil sub v hv
      have hvinf : v <:+: sub := fields_infix sub v hv
      have hvat : '@' ∉ v := fun h => hat (hvinf.subset h)
      rw [hctx1] at hj
      have hm := masked_occurrence (ctx.take i) _ _ sub v j hlen hM0 hM hvat hvne hj
      rw [← hctx] at hm
      rcases occursAt_of_infix_occurs ctx sub v i hocci hvinf with ⟨off, hvoff, hoffle⟩
      have hji : j = i + off :=
        occurs_unique ctx v j (i + off) hvne (hwords v hv) hm.1 hvoff
      have hvlen := List.length_pos.mpr hvne
      rcases hm.2 with h | h
      · rw [hji, hA] at h
        omega
      · rw [hji, hA, ← hlen] at h
        omega

/-- C1 (amended): after `reset` destructively consumes the queued fragment,
re-running `advance` on an identical fragment reports not-found, provided
the fragment is nonempty, contains no newline and no `'@'` sentinel,
occurred exactly once in the remaining context, and each of its
whitespace-delimited words also occurred exactly once (so the per-word
fallback tier cannot rematch elsewhere). -/
theorem c1_amended_consumption (w : Walker) (frag : Str)
    (hq : w.queue = [frag]) (hne : frag ≠ [])
    (hnl : '\n' ∉ frag) (hat : '@' ∉ frag)
    (huniq : occurrencesCount w.context frag = 1)
    (hwords : ∀ v ∈ fields frag, occurrencesCount w.context v = 1) :
    Walker.advance (Walker.reset w) frag = -1 := by
  have hmask := no_occurrence_after_mask w.context frag hne hnl hat huniq hwords
  have hfound : (substitute w.context frag '@').2 = true := by
    rcases occurs_exists w.context frag huniq with ⟨j0, hj0⟩
    rcases Option.isSome_iff_exists.mp
      (firstIndex?_isSome_of_occurs w.context frag j0 hj0) with ⟨i, hfi⟩
    unfold substitute
    rw [hfi]
  have hctxr : (Walker.reset w).context = (substitute w.context frag '@').1 := by
    unfold Walker.reset updateContext
    rw [hq]
    rw [List.foldl_cons, List.foldl_nil]
    unfold updateCtx
    rw [if_pos ⟨Or.inl rfl, hne⟩]
    rw [splitNl_no_newline frag hnl]
    rw [List.foldl_cons, List.foldl_nil]
    change (if (substitute w.context frag '@').2 = true
        then (substitute w.context frag '@').1
        else List.foldl (fun c2 v => (substitute c2 v '@').1)
          (substitute w.context frag '@').1 (fields frag)) = _
    rw [if_pos hfound]
  unfold Walker.advance
  rw [splitNl_no_newline frag hnl]
  rw [List.foldl_cons, List.foldl_nil]
  have hw : strIndex (Walker.reset w).context frag = -1 := by
    rw [hctxr]
    exact strIndex_neg _ _ hmask.1
  change (if (if strIndex (Walker.reset w).context frag < 0
      then List.foldl (fun _q ss => strIndex (Walker.reset w).context ss)
        (strIndex (Walker.reset w).context frag) (fields frag)
      else strIndex (Walker.reset w).context frag) ≥ 0 then _ else -1) = -1
  rw [hw]
  rw [if_pos (by norm_num : (-1 : Int) < 0)]
  have hwords1 : List.foldl (fun _q ss => strIndex (Walker.reset w).context ss)
      (-1 : Int) (fields frag) = -1 := by
    apply foldl_words_neg
    · rfl
    · intro v hv
      rw [hctxr]
      exact strIndex_neg _ _ (hmask.2 v hv)
  rw [hwords1]
  norm_num

/-- C1 witness: in the document `say\nhello there` the once-occurring
fragment `hello` can no longer be located after `reset` consumes it. -/
theorem c1_amended_consumption_witness :
    Walker.advance (Walker.reset w1) (chars (r"hello")) = -1 :=
  c1_amended_consumption w1 (chars (r"hello")) (by decide) (by decide)
    (by decide) (by decide) (by decide) (by decide)
